import Mathlib

/-!
Verification of the blame-reassignment core of `slimmer.py`.

The program is shallowly embedded: the package dictionary `pkgs_by_name`
is split into its immutable part (a `PkgGraph`: node names and the
`dep_children` / `dep_parents` edge lists of each `Pkg`) and its mutable
part (a `Sizes` map from names to `Option ℚ`, where `none` models
`size = None`, the collapsed marker, and `some q` models a pending
numeric size).  `_recurse_reassign_blame`, `reassign_blame`,
`pick_root_packages`, the sorting/truncation done in `main` and
`print_summary`, the graph construction loops of `main`, and
`disk_usage` / `explore_var` are all translated function by function.
-/

/-- Mutable state of the program: `pkg.size` for every package name.
`none` is the collapsed marker (`size = None` in the source). -/
abbrev Sizes := String → Option ℚ

/-- Immutable part of `pkgs_by_name`: the key list and, for each `Pkg`,
its `dep_children` and `dep_parents` edge sets (modelled as lists). -/
structure PkgGraph where
  names : List String
  dep_children : String → List String
  dep_parents : String → List String

/-- `MAX_DEPTH = 10` from `_recurse_reassign_blame`. -/
def MAX_DEPTH : Nat := 10

/-- The parent loop at the end of `_recurse_reassign_blame`:
`for parent_name in current.dep_parents: if parent.size is not None:
parent.size += blame_up`.  A parent whose size is `None` is skipped. -/
def blameParents (blame_up : ℚ) : List String → Sizes → Sizes
  | [], s => s
  | q :: ps, s =>
    match s q with
    | some v => blameParents blame_up ps (Function.update s q (some (v + blame_up)))
    | none => blameParents blame_up ps s

/-- The tail of `_recurse_reassign_blame` after the child loop: re-check
`current.size`, and if the node is still pending and `dep_parents` is
non-empty, split the size equally over the parents and set the node's
size to `None` before distributing. -/
def collapseIfNeeded (g : PkgGraph) (n : String) (s : Sizes) : Sizes :=
  match s n with
  | none => s
  | some sz =>
    match g.dep_parents n with
    | [] => s
    | _ :: _ =>
      blameParents (sz / ((g.dep_parents n).length : ℚ))
        (g.dep_parents n) (Function.update s n none)

/-- The child loop of `_recurse_reassign_blame`, iterating a visit
function over `current.dep_children` while threading the state. -/
def visitChildren (f : String → Sizes → Sizes) : List String → Sizes → Sizes
  | [], s => s
  | c :: cs, s => visitChildren f cs (f c s)

/-- `_recurse_reassign_blame(current, pkgs_by_name, debug, depth)` with
the depth counter replaced by the remaining fuel
`MAX_DEPTH - depth`: the source breaks out of the child loop exactly
when `depth == MAX_DEPTH`, i.e. when the fuel is zero.  The leading
`if current.size is None: return` is the first match. -/
def _recurse_reassign_blame (g : PkgGraph) : Nat → String → Sizes → Sizes
  | 0, n, s =>
    match s n with
    | none => s
    | some _ => collapseIfNeeded g n s
  | Nat.succ fuel, n, s =>
    match s n with
    | none => s
    | some _ =>
      collapseIfNeeded g n
        (visitChildren (_recurse_reassign_blame g fuel) (g.dep_children n) s)

/-- `reassign_blame(root_packages, pkgs_by_name, debug)`: one traversal
per entry of the given package list, each starting at depth 0
(full fuel `MAX_DEPTH`). -/
def reassign_blame (g : PkgGraph) : List String → Sizes → Sizes
  | [], s => s
  | r :: rs, s => reassign_blame g rs (_recurse_reassign_blame g MAX_DEPTH r s)

/-- `pick_root_packages(pkgs_by_name)`: the packages whose
`dep_parents` set is empty. -/
def pick_root_packages (g : PkgGraph) : List String :=
  g.names.filter (fun n => (g.dep_parents n).isEmpty)

/-- The engine invocation in `main`:
`reassign_blame(pick_root_packages(pkgs_by_name), pkgs_by_name, debug)`. -/
def runEngine (g : PkgGraph) (s : Sizes) : Sizes :=
  reassign_blame g (pick_root_packages g) s

/-- Sum of all pending sizes over the package map (collapsed nodes
count as zero). -/
def totalSize (g : PkgGraph) (s : Sizes) : ℚ :=
  (g.names.map (fun n => (s n).getD 0)).sum

/-- Well-formedness of a graph built by the construction loop of
`main` (the GraphBuilder contract): node keys are distinct, the edge
lists mention only existing keys, parent lists are duplicate-free
(they model Python sets) and the two edge directions are symmetric. -/
structure WFGraph (g : PkgGraph) : Prop where
  nodup : g.names.Nodup
  children_mem : ∀ n ∈ g.names, ∀ c ∈ g.dep_children n, c ∈ g.names
  parents_mem : ∀ n ∈ g.names, ∀ p ∈ g.dep_parents n, p ∈ g.names
  parents_nodup : ∀ n ∈ g.names, (g.dep_parents n).Nodup
  child_parent : ∀ n ∈ g.names, ∀ c ∈ g.dep_children n, n ∈ g.dep_parents c
  parent_child : ∀ n ∈ g.names, ∀ p ∈ g.dep_parents n, n ∈ g.dep_children p

/-- The bookkeeping invariant of the traversal: a collapsed node has
already pushed its blame up, which in turn required collapsing each of
its children first, so all children of a collapsed node are collapsed. -/
def ChildrenClosed (g : PkgGraph) (s : Sizes) : Prop :=
  ∀ n ∈ g.names, s n = none → ∀ c ∈ g.dep_children n, s c = none

/-- `depthOKb g fuel n = true` iff every dependency path starting at
`n` has length at most `fuel`, so that a traversal of `n` with this
much fuel never hits the `depth == MAX_DEPTH` cutoff at a node that
still has children to visit. -/
def depthOKb (g : PkgGraph) : Nat → String → Bool
  | 0, n => (g.dep_children n).isEmpty
  | Nat.succ fuel, n => (g.dep_children n).all (fun c => depthOKb g fuel c)

/-- `reachb g k a b = true` iff `b` can be reached from `a` by
following at most `k` `dep_children` edges. -/
def reachb (g : PkgGraph) : Nat → String → String → Bool
  | 0, a, b => a == b
  | Nat.succ k, a, b => a == b || (g.dep_children a).any (fun c => reachb g k c b)

/-- `∀ m, s m = some v → 0 ≤ v`: every pending size is non-negative. -/
def NonNegSizes (s : Sizes) : Prop :=
  ∀ m v, s m = some v → 0 ≤ v

/-- Variant of `blameParents` that makes the dictionary lookup
`pkgs_by_name[parent_name]` explicit: a missing key is a `KeyError`,
modelled as `none`. -/
def blameParentsChk (g : PkgGraph) (blame_up : ℚ) : List String → Sizes → Option Sizes
  | [], s => some s
  | q :: ps, s =>
    if q ∈ g.names then
      match s q with
      | some v => blameParentsChk g blame_up ps (Function.update s q (some (v + blame_up)))
      | none => blameParentsChk g blame_up ps s
    else none

/-- Checked variant of `collapseIfNeeded` (see `blameParentsChk`). -/
def collapseIfNeededChk (g : PkgGraph) (n : String) (s : Sizes) : Option Sizes :=
  match s n with
  | none => some s
  | some sz =>
    match g.dep_parents n with
    | [] => some s
    | _ :: _ =>
      blameParentsChk g (sz / ((g.dep_parents n).length : ℚ))
        (g.dep_parents n) (Function.update s n none)

/-- Child loop of the checked traversal: each child name is looked up in
the dictionary (`d = pkgs_by_name[d_name]`, a `KeyError` when absent),
and the largest recursion depth seen by any child call is returned. -/
def visitChildrenChk (g : PkgGraph) (f : String → Sizes → Option (Sizes × Nat)) :
    List String → Sizes → Option (Sizes × Nat)
  | [], s => some (s, 0)
  | c :: cs, s =>
    if c ∈ g.names then
      match f c s with
      | none => none
      | some (s1, d1) =>
        match visitChildrenChk g f cs s1 with
        | none => none
        | some (s2, d2) => some (s2, max d1 d2)
    else none

/-- Instrumented version of `_recurse_reassign_blame`: it additionally
carries the current recursion depth (`depth` in the source, equal to
`MAX_DEPTH` minus the fuel), reports the deepest recursive call made,
and surfaces dictionary-lookup failures as `none` instead of hiding
them, so that totality and the depth bound are provable facts. -/
def visitChk (g : PkgGraph) : Nat → Nat → String → Sizes → Option (Sizes × Nat)
  | 0, depth, n, s =>
    match s n with
    | none => some (s, depth)
    | some _ =>
      match collapseIfNeededChk g n s with
      | none => none
      | some t => some (t, depth)
  | Nat.succ fuel, depth, n, s =>
    match s n with
    | none => some (s, depth)
    | some _ =>
      match visitChildrenChk g (visitChk g fuel (depth + 1)) (g.dep_children n) s with
      | none => none
      | some (s1, d1) =>
        match collapseIfNeededChk g n s1 with
        | none => none
        | some t => some (t, max depth d1)

/-- One record of the collaborator input consumed by `main`'s build
loops: the package name, `p.installed.installed_size`, and
`p.installed.dependencies` as a list of alternative-name groups. -/
structure PkgRecord where
  name : String
  installed_size : ℚ
  dependencies : List (List String)

/-- Addition of an element to a Python `set`, modelled on lists. -/
def insertName (x : String) (l : List String) : List String :=
  if x ∈ l then l else l ++ [x]

/-- The two growing edge maps of the build loop. -/
structure EdgeState where
  dep_children : String → List String
  dep_parents : String → List String

/-- The body of the innermost build loop for an installed alternative:
`pkgs_by_name[pkg_name].dep_children.add(dname)` and
`pkgs_by_name[dname].dep_parents.add(pkg_name)`. -/
def addEdge (st : EdgeState) (pkg_name dname : String) : EdgeState where
  dep_children :=
    Function.update st.dep_children pkg_name (insertName dname (st.dep_children pkg_name))
  dep_parents :=
    Function.update st.dep_parents dname (insertName pkg_name (st.dep_parents dname))

/-- `for alternative_dep in dep:` — an alternative whose name is not a
key of `pkgs_by_name` is skipped (`continue`), otherwise both edge
directions are added. -/
def addAlternatives (names : List String) (pkg_name : String) :
    List String → EdgeState → EdgeState
  | [], st => st
  | dname :: rest, st =>
    if dname ∈ names then addAlternatives names pkg_name rest (addEdge st pkg_name dname)
    else addAlternatives names pkg_name rest st

/-- `for dep in p.installed.dependencies:` over the groups. -/
def addDependencyGroups (names : List String) (pkg_name : String) :
    List (List String) → EdgeState → EdgeState
  | [], st => st
  | dep :: deps, st =>
    addDependencyGroups names pkg_name deps (addAlternatives names pkg_name dep st)

/-- The outer `for pkg_name, p in installed_packages:` edge loop. -/
def buildEdges (names : List String) : List PkgRecord → EdgeState → EdgeState
  | [], st => st
  | r :: rs, st => buildEdges names rs (addDependencyGroups names r.name r.dependencies st)

/-- The key set of `pkgs_by_name` after the first build loop. -/
def record_names (recs : List PkgRecord) : List String := recs.map (fun r => r.name)

/-- The two build loops of `main`: first create all `Pkg` nodes, then
add all edges. -/
def build_graph (recs : List PkgRecord) : PkgGraph :=
  let st := buildEdges (record_names recs) recs ⟨fun _ => [], fun _ => []⟩
  { names := record_names recs
    dep_children := st.dep_children
    dep_parents := st.dep_parents }

/-- Initial sizes from the first build loop (`Pkg(pkg_name, size)`);
with duplicate names the later record overwrites the earlier one, as a
Python dict assignment does. -/
def build_sizes (recs : List PkgRecord) : Sizes :=
  fun n => (recs.reverse.find? (fun r => r.name == n)).map (fun r => r.installed_size)

/-- The sort key ordering of `root_packages.sort(reverse=True,
key=lambda p: p.size)`: descending by size. -/
def sizeGe (a b : String × ℚ) : Prop := b.2 ≤ a.2

instance : DecidableRel sizeGe :=
  fun a b => inferInstanceAs (Decidable (b.2 ≤ a.2))

instance : IsTotal (String × ℚ) sizeGe :=
  ⟨fun a b => le_total b.2 a.2⟩

instance : IsTrans (String × ℚ) sizeGe :=
  ⟨fun _ _ _ hab hbc => le_trans hbc hab⟩

/-- The `root_packages.sort(reverse=True, key=lambda p: p.size)` call
in `main`.  Python's sort is stable, so it is modelled by a stable
sort (insertion sort) on the descending-size relation: both produce
the unique descending reordering that keeps equal-size entries in
their original relative order. -/
def sort_root_packages (l : List (String × ℚ)) : List (String × ℚ) :=
  List.insertionSort sizeGe l

/-- `print_summary(root_packages, num_packages_max)` prints
`root_packages[:num_packages_max]`; the emitted (name, size) rows. -/
def print_summary (root_packages : List (String × ℚ)) (num_packages_max : Nat) :
    List (String × ℚ) :=
  root_packages.take num_packages_max

/-- The default of the `-n` option in `parse_args`. -/
def default_num_packages : Nat := 50

/-- The Summary stage of `main`: sort descending by size, then
truncate to the first `n` entries. -/
def summarize (l : List (String × ℚ)) (n : Nat) : List (String × ℚ) :=
  print_summary (sort_root_packages l) n

/-- Modelled from the spec (§4.4 Summary): "sorts descending by size
(ties broken by name for determinism)".  Used only to compare the
spec's claimed ordering with the one the code computes. -/
def specTieRel (a b : String × ℚ) : Prop :=
  b.2 < a.2 ∨ (a.2 = b.2 ∧ ¬ b.1 < a.1)

instance : DecidableRel specTieRel :=
  fun a b => inferInstanceAs (Decidable (b.2 < a.2 ∨ (a.2 = b.2 ∧ ¬ b.1 < a.1)))

/-- Sorting as the spec's Summary contract describes it. -/
def sort_by_spec (l : List (String × ℚ)) : List (String × ℚ) :=
  List.insertionSort specTieRel l

/-- `DU_BIN_PATH = '/usr/bin/du'`. -/
def DU_BIN_PATH : String := "/usr/bin/du"

/-- The ambient system operations that `disk_usage` consults:
`os.path.isdir` and `subprocess.getstatusoutput`. -/
structure SysEnv where
  isdir : String → Bool
  getstatusoutput : String → Int × String

/-- `cmd = '%s -bs %s' % (DU_BIN_PATH, path)`. -/
def du_cmd (path : String) : String := DU_BIN_PATH ++ " -bs " ++ path

/-- The error line printed when `du` exits non-zero:
`"Error running %s\n--output--\n%s\n--end--" % (cmd, output)`. -/
def du_error_msg (cmd output : String) : String :=
  "Error running " ++ cmd ++ "\n--output--\n" ++ output ++ "\n--end--"

/-- `output.split(None, 1)[0]`: the first whitespace-separated token;
`none` models the `IndexError` on an all-whitespace output. -/
def first_ws_token (s : String) : Option String :=
  ((s.split Char.isWhitespace).filter (fun t => t ≠ "")).head?

/-- `disk_usage(path)`: returns the measured byte count together with
the error lines printed; `none` models the uncaught exception when a
zero-exit `du` output cannot be parsed (`int()` raising). -/
def disk_usage (env : SysEnv) (path : String) : Option (ℚ × List String) :=
  if env.isdir path then
    let cmd := du_cmd path
    let r := env.getstatusoutput cmd
    if r.1 = 0 then
      match first_ws_token r.2 with
      | some tok =>
        match tok.toInt? with
        | some k => some ((k : ℚ), [])
        | none => none
      | none => none
    else some (0, [du_error_msg cmd r.2])
  else some (0, [])

/-- `installed_fn.split(os.path.sep, 4)` compared against length 4 is
the same as requiring the full separator split to have exactly four
tokens; `explore_var` then re-joins those tokens. -/
def var_tokens (fn : String) : List String := fn.splitOn "/"

/-- The filter of `explore_var`: `len(tok) == 4 and tok[1] == 'var'
and tok[2] in ('lib', 'cache', 'log')`. -/
def is_var_path (fn : String) : Bool :=
  let tok := var_tokens fn
  tok.length == 4 && tok.getD 1 "" == "var" &&
    (tok.getD 2 "" == "lib" || tok.getD 2 "" == "cache" || tok.getD 2 "" == "log")

/-- `os.path.sep.join(tok)`. -/
def var_path_of (fn : String) : String := String.intercalate "/" (var_tokens fn)

/-- The accumulating loop of `explore_var` (`size += path_size`),
also collecting the error lines printed along the way. -/
def explore_var_loop (env : SysEnv) (acc : ℚ) (logs : List String) :
    List String → Option (ℚ × List String)
  | [] => some (acc, logs)
  | fn :: rest =>
    if is_var_path fn then
      match disk_usage env (var_path_of fn) with
      | none => none
      | some (sz, lg) => explore_var_loop env (acc + sz) (logs ++ lg) rest
    else explore_var_loop env acc logs rest

/-- `explore_var(p)` over the package's `installed_files` list. -/
def explore_var (env : SysEnv) (installed_files : List String) : Option (ℚ × List String) :=
  explore_var_loop env 0 [] installed_files

/-- A two-node mutual dependency cycle (`a ↔ b`), built per the
GraphBuilder contract: both nodes have a parent, so the root list is
empty. -/
def gCyc : PkgGraph where
  names := ["a", "b"]
  dep_children := fun n => if n = "a" then ["b"] else if n = "b" then ["a"] else []
  dep_parents := fun n => if n = "a" then ["b"] else if n = "b" then ["a"] else []

/-- Initial sizes for `gCyc`: one byte each. -/
def sCyc : Sizes := fun n => if n = "a" then some 1 else if n = "b" then some 1 else none

/-- Names of the 13-node chain `a → b → ⋯ → m`. -/
def chainNames : List String := ["a","b","c","d","e","f","g","h","i","j","k","l","m"]

/-- An acyclic 12-edge dependency chain `a → b → ⋯ → m`, two edges
longer than `MAX_DEPTH`. -/
def gChain : PkgGraph where
  names := chainNames
  dep_children := fun n =>
    if n = "a" then ["b"] else if n = "b" then ["c"] else if n = "c" then ["d"]
    else if n = "d" then ["e"] else if n = "e" then ["f"] else if n = "f" then ["g"]
    else if n = "g" then ["h"] else if n = "h" then ["i"] else if n = "i" then ["j"]
    else if n = "j" then ["k"] else if n = "k" then ["l"] else if n = "l" then ["m"]
    else []
  dep_parents := fun n =>
    if n = "b" then ["a"] else if n = "c" then ["b"] else if n = "d" then ["c"]
    else if n = "e" then ["d"] else if n = "f" then ["e"] else if n = "g" then ["f"]
    else if n = "h" then ["g"] else if n = "i" then ["h"] else if n = "j" then ["i"]
    else if n = "k" then ["j"] else if n = "l" then ["k"] else if n = "m" then ["l"]
    else []

/-- Initial sizes for `gChain`: one byte each. -/
def sChain : Sizes := fun n => if n ∈ chainNames then some 1 else none

/-- The diamond example of spec §8: root `ra` (own 10) depends on `bb`
and `cc` (own 5 each), which both depend on `dd` (own 8). -/
def gDia : PkgGraph where
  names := ["ra", "bb", "cc", "dd"]
  dep_children := fun n =>
    if n = "ra" then ["bb", "cc"] else if n = "bb" then ["dd"]
    else if n = "cc" then ["dd"] else []
  dep_parents := fun n =>
    if n = "bb" then ["ra"] else if n = "cc" then ["ra"]
    else if n = "dd" then ["bb", "cc"] else []

/-- Own sizes for `gDia`. -/
def ownDia : String → ℚ :=
  fun n =>
    if n = "ra" then 10 else if n = "bb" then 5 else if n = "cc" then 5
    else if n = "dd" then 8 else 0

/-- Records exercising the GraphBuilder: `x` depends on the group
`y | zz` where `y` is installed and `zz` is not. -/
def recsW : List PkgRecord :=
  [⟨"x", 7, [["y", "zz"]]⟩, ⟨"y", 3, []⟩]

/-- A system environment in which `du` always fails with exit code 1
and output `boom`. -/
def envFail : SysEnv where
  isdir := fun _ => true
  getstatusoutput := fun _ => (1, "boom")

/-! Basic unfolding lemmas for the traversal. -/

theorem visit_entry_none (g : PkgGraph) (fuel : Nat) (n : String) (s : Sizes)
    (h : s n = none) : _recurse_reassign_blame g fuel n s = s := by
  cases fuel <;> simp [_recurse_reassign_blame, h]

theorem visit_zero (g : PkgGraph) (n : String) (s : Sizes) (v : ℚ) (h : s n = some v) :
    _recurse_reassign_blame g 0 n s = collapseIfNeeded g n s := by
  simp [_recurse_reassign_blame, h]

theorem visit_succ (g : PkgGraph) (fuel : Nat) (n : String) (s : Sizes) (v : ℚ)
    (h : s n = some v) :
    _recurse_reassign_blame g (fuel + 1) n s =
      collapseIfNeeded g n
        (visitChildren (_recurse_reassign_blame g fuel) (g.dep_children n) s) := by
  simp [_recurse_reassign_blame, h]

theorem collapse_entry_none (g : PkgGraph) (n : String) (s : Sizes) (h : s n = none) :
    collapseIfNeeded g n s = s := by
  simp [collapseIfNeeded, h]

theorem collapse_no_parents (g : PkgGraph) (n : String) (s : Sizes) (v : ℚ)
    (h : s n = some v) (hp : g.dep_parents n = []) : collapseIfNeeded g n s = s := by
  simp [collapseIfNeeded, h, hp]

theorem collapse_eq_blame (g : PkgGraph) (n : String) (s : Sizes) (v : ℚ)
    (h : s n = some v) (hp : g.dep_parents n ≠ []) :
    collapseIfNeeded g n s =
      blameParents (v / ((g.dep_parents n).length : ℚ)) (g.dep_parents n)
        (Function.update s n none) := by
  cases hq : g.dep_parents n with
  | nil => exact absurd hq hp
  | cons p ps => simp [collapseIfNeeded, h, hq]

/-! `blameParents` only increases sizes of pending nodes; it never
creates or removes the collapsed marker. -/

theorem blameParents_none_iff (b : ℚ) :
    ∀ (ps : List String) (s : Sizes) (m : String),
      blameParents b ps s m = none ↔ s m = none := by
  intro ps
  induction ps with
  | nil => intro s m; simp [blameParents]
  | cons q ps ih =>
    intro s m
    cases h : s q with
    | none => simp [blameParents, h, ih]
    | some v =>
      simp only [blameParents, h]
      rw [ih]
      by_cases hm : m = q
      · subst hm; simp [Function.update_same, h]
      · simp [Function.update_noteq hm]

theorem blameParents_not_mem (b : ℚ) :
    ∀ (ps : List String) (s : Sizes) (m : String), m ∉ ps →
      blameParents b ps s m = s m := by
  intro ps
  induction ps with
  | nil => intro s m _; simp [blameParents]
  | cons q ps ih =>
    intro s m hm
    have hmq : m ≠ q := fun h => hm (h ▸ List.mem_cons_self q ps)
    have hmp : m ∉ ps := fun h => hm (List.mem_cons_of_mem q h)
    cases h : s q with
    | none => simp [blameParents, h, ih _ _ hmp]
    | some v =>
      simp only [blameParents, h]
      rw [ih _ _ hmp, Function.update_noteq hmq]

/-! Collapsedness only grows along the traversal. -/

theorem collapse_mono (g : PkgGraph) (n : String) (s : Sizes) (m : String)
    (h : s m = none) : collapseIfNeeded g n s m = none := by
  cases hn : s n with
  | none => rw [collapse_entry_none g n s hn]; exact h
  | some v =>
    cases hp : g.dep_parents n with
    | nil => rw [collapse_no_parents g n s v hn hp]; exact h
    | cons p ps =>
      rw [collapse_eq_blame g n s v hn (by simp [hp])]
      rw [blameParents_none_iff]
      by_cases hm : m = n
      · subst hm; simp [Function.update_same]
      · simp [Function.update_noteq hm, h]

theorem visitChildren_none_pres (f : String → Sizes → Sizes)
    (hf : ∀ c s m, s m = none → f c s m = none) :
    ∀ (cs : List String) (s : Sizes) (m : String), s m = none →
      visitChildren f cs s m = none := by
  intro cs
  induction cs with
  | nil => intro s m h; exact h
  | cons c cs ih => intro s m h; exact ih _ _ (hf c s m h)

theorem visit_mono (g : PkgGraph) :
    ∀ (fuel : Nat) (n : String) (s : Sizes) (m : String), s m = none →
      _recurse_reassign_blame g fuel n s m = none := by
  intro fuel
  induction fuel with
  | zero =>
    intro n s m h
    cases hn : s n with
    | none => rw [visit_entry_none g _ n s hn]; exact h
    | some v => rw [visit_zero g n s v hn]; exact collapse_mono g n s m h
  | succ f ih =>
    intro n s m h
    cases hn : s n with
    | none => rw [visit_entry_none g _ n s hn]; exact h
    | some v =>
      rw [visit_succ g f n s v hn]
      exact collapse_mono g n _ m (visitChildren_none_pres _ (fun c t m' h' => ih c t m' h') _ s m h)

theorem visitChildren_mono (g : PkgGraph) (fuel : Nat) :
    ∀ (cs : List String) (s : Sizes) (m : String), s m = none →
      visitChildren (_recurse_reassign_blame g fuel) cs s m = none :=
  visitChildren_none_pres _ (fun c s m h => visit_mono g fuel c s m h)

/-! A node with parents is collapsed after any visit that enters it. -/

theorem collapse_post (g : PkgGraph) (n : String) (s : Sizes)
    (hp : g.dep_parents n ≠ []) : collapseIfNeeded g n s n = none := by
  cases hn : s n with
  | none => rw [collapse_entry_none g n s hn]; exact hn
  | some v =>
    rw [collapse_eq_blame g n s v hn hp, blameParents_none_iff]
    simp [Function.update_same]

theorem visit_post (g : PkgGraph) (fuel : Nat) (n : String) (s : Sizes)
    (hp : g.dep_parents n ≠ []) : _recurse_reassign_blame g fuel n s n = none := by
  cases fuel with
  | zero =>
    cases hn : s n with
    | none => rw [visit_entry_none g _ n s hn]; exact hn
    | some v => rw [visit_zero g n s v hn]; exact collapse_post g n s hp
  | succ f =>
    cases hn : s n with
    | none => rw [visit_entry_none g _ n s hn]; exact hn
    | some v => rw [visit_succ g f n s v hn]; exact collapse_post g n _ hp

theorem visitChildren_post (g : PkgGraph) (fuel : Nat) :
    ∀ (cs : List String) (s : Sizes) (c : String), c ∈ cs → g.dep_parents c ≠ [] →
      visitChildren (_recurse_reassign_blame g fuel) cs s c = none := by
  intro cs
  induction cs with
  | nil => intro s c hc; exact absurd hc (List.not_mem_nil c)
  | cons c0 cs ih =>
    intro s c hc hp
    rcases List.mem_cons.1 hc with rfl | hc'
    · exact visitChildren_mono g fuel cs _ c (visit_post g fuel c s hp)
    · exact ih _ c hc' hp

/-! A node with no parents never becomes collapsed. -/

theorem blameParents_some_stays (b : ℚ) (ps : List String) (s : Sizes) (m : String)
    (h : s m ≠ none) : blameParents b ps s m ≠ none := by
  rw [Ne, blameParents_none_iff]; exact h

theorem collapse_parentless_stays (g : PkgGraph) (n : String) (s : Sizes) (m : String)
    (hm : g.dep_parents m = []) (h : s m ≠ none) : collapseIfNeeded g n s m ≠ none := by
  cases hn : s n with
  | none => rw [collapse_entry_none g n s hn]; exact h
  | some v =>
    cases hp : g.dep_parents n with
    | nil => rw [collapse_no_parents g n s v hn hp]; exact h
    | cons p ps =>
      have hne : n ≠ m := by
        intro he; rw [he, hm] at hp; exact List.noConfusion hp
      rw [collapse_eq_blame g n s v hn (by simp [hp])]
      apply blameParents_some_stays
      rw [Function.update_noteq (fun he => hne he.symm)]
      exact h

theorem visit_parentless_stays (g : PkgGraph) :
    ∀ (fuel : Nat) (n : String) (s : Sizes) (m : String), g.dep_parents m = [] →
      s m ≠ none → _recurse_reassign_blame g fuel n s m ≠ none := by
  intro fuel
  induction fuel with
  | zero =>
    intro n s m hm h
    cases hn : s n with
    | none => rw [visit_entry_none g _ n s hn]; exact h
    | some v => rw [visit_zero g n s v hn]; exact collapse_parentless_stays g n s m hm h
  | succ f ih =>
    intro n s m hm h
    cases hn : s n with
    | none => rw [visit_entry_none g _ n s hn]; exact h
    | some v =>
      rw [visit_succ g f n s v hn]
      apply collapse_parentless_stays g n _ m hm
      -- the child loop also keeps `m` pending
      clear hn
      induction g.dep_children n generalizing s with
      | nil => exact h
      | cons c cs ihc => exact ihc _ (ih c s m hm h)

theorem reassign_parentless_stays (g : PkgGraph) :
    ∀ (rs : List String) (s : Sizes) (m : String), g.dep_parents m = [] →
      s m ≠ none → reassign_blame g rs s m ≠ none := by
  intro rs
  induction rs with
  | nil => intro s m _ h; exact h
  | cons r rs ih =>
    intro s m hm h
    exact ih _ m hm (visit_parentless_stays g MAX_DEPTH r s m hm h)

/-! Summation lemmas for `totalSize`. -/

theorem sum_map_update (l : List String) (hl : l.Nodup) (f : String → ℚ) (q : String)
    (hq : q ∈ l) (x : ℚ) :
    (l.map (fun n => Function.update f q x n)).sum = (l.map f).sum + x - f q := by
  induction l with
  | nil => exact absurd hq (List.not_mem_nil q)
  | cons a l ih =>
    rcases List.mem_cons.1 hq with rfl | hq'
    · have hnot : q ∉ l := (List.nodup_cons.1 hl).1
      have : l.map (fun n => Function.update f q x n) = l.map f := by
        apply List.map_congr_left
        intro b hb
        exact Function.update_noteq (ne_of_mem_of_not_mem hb hnot) x f
      simp only [List.map_cons, List.sum_cons, this, Function.update_same]
      ring
    · have ha : a ≠ q := by
        intro h
        exact (List.nodup_cons.1 hl).1 (h ▸ hq')
      simp only [List.map_cons, List.sum_cons, ih (List.nodup_cons.1 hl).2 hq',
        Function.update_noteq ha]
      ring

theorem totalSize_update (g : PkgGraph) (hnd : g.names.Nodup) (s : Sizes) (q : String)
    (hq : q ∈ g.names) (o : Option ℚ) :
    totalSize g (Function.update s q o) = totalSize g s + o.getD 0 - (s q).getD 0 := by
  unfold totalSize
  have h1 : g.names.map (fun n => ((Function.update s q o) n).getD 0) =
      g.names.map (fun n => Function.update (fun m => (s m).getD 0) q (o.getD 0) n) := by
    apply List.map_congr_left
    intro b _
    by_cases hb : b = q
    · subst hb; simp [Function.update_same]
    · simp [Function.update_noteq hb]
  rw [h1, sum_map_update g.names hnd _ q hq]

theorem blameParents_total (g : PkgGraph) (hnd : g.names.Nodup) (b : ℚ) :
    ∀ (ps : List String) (s : Sizes), ps.Nodup → (∀ q ∈ ps, q ∈ g.names) →
      (∀ q ∈ ps, s q ≠ none) →
      totalSize g (blameParents b ps s) = totalSize g s + (ps.length : ℚ) * b := by
  intro ps
  induction ps with
  | nil => intro s _ _ _; simp [blameParents]
  | cons q ps ih =>
    intro s hnodup hmem hpend
    have hq : s q ≠ none := hpend q (List.mem_cons_self q ps)
    cases hv : s q with
    | none => exact absurd hv hq
    | some v =>
      simp only [blameParents, hv]
      have hrest : ∀ p ∈ ps, (Function.update s q (some (v + b))) p ≠ none := by
        intro p hp
        have hpq : p ≠ q := by
          intro h
          exact (List.nodup_cons.1 hnodup).1 (h ▸ hp)
        rw [Function.update_noteq hpq]
        exact hpend p (List.mem_cons_of_mem q hp)
      rw [ih _ (List.nodup_cons.1 hnodup).2 (fun p hp => hmem p (List.mem_cons_of_mem q hp)) hrest]
      rw [totalSize_update g hnd s q (hmem q (List.mem_cons_self q ps))]
      simp only [Option.getD_some, hv, List.length_cons]
      push_cast
      ring

/-! The collapse step: with all children already collapsed and the
bookkeeping invariant in force, every parent is still pending, so the
node's entire size is transferred and the invariant is maintained. -/

theorem collapse_conserves (g : PkgGraph) (hwf : WFGraph g) (n : String) (hn : n ∈ g.names)
    (s : Sizes) (hcc : ChildrenClosed g s) (v : ℚ) (hv : s n = some v)
    (hch : ∀ c ∈ g.dep_children n, s c = none) (hp : g.dep_parents n ≠ []) :
    ChildrenClosed g (collapseIfNeeded g n s) ∧
      totalSize g (collapseIfNeeded g n s) = totalSize g s := by
  have hpend : ∀ q ∈ g.dep_parents n, s q ≠ none := by
    intro q hq hnone
    have hqmem : q ∈ g.names := hwf.parents_mem n hn q hq
    have hchild : n ∈ g.dep_children q := hwf.parent_child n hn q hq
    have := hcc q hqmem hnone n hchild
    rw [hv] at this
    exact Option.noConfusion this
  have hnotself : n ∉ g.dep_parents n := by
    intro hmem
    have hchild : n ∈ g.dep_children n := hwf.parent_child n hn n hmem
    have := hch n hchild
    rw [hv] at this
    exact Option.noConfusion this
  rw [collapse_eq_blame g n s v hv hp]
  set b := v / ((g.dep_parents n).length : ℚ) with hb
  set s1 := Function.update s n none with hs1
  have hpend1 : ∀ q ∈ g.dep_parents n, s1 q ≠ none := by
    intro q hq
    have hqn : q ≠ n := fun h => hnotself (h ▸ hq)
    rw [hs1, Function.update_noteq hqn]
    exact hpend q hq
  constructor
  · -- the invariant is preserved
    intro m hm hmnone c hc
    have hnone_iff : ∀ x, blameParents b (g.dep_parents n) s1 x = none ↔ (x = n ∨ s x = none) := by
      intro x
      rw [blameParents_none_iff, hs1]
      by_cases hx : x = n
      · subst hx; simp [Function.update_same]
      · simp [Function.update_noteq hx, hx]
    rw [hnone_iff] at hmnone
    rw [hnone_iff]
    rcases hmnone with rfl | hmnone
    · exact Or.inr (hch c hc)
    · exact Or.inr (hcc m hm hmnone c hc)
  · -- the total size is conserved
    have h1 : totalSize g s1 = totalSize g s - v := by
      rw [hs1, totalSize_update g hwf.nodup s n hn none, hv]
      simp
    rw [blameParents_total g hwf.nodup b (g.dep_parents n) s1
      (hwf.parents_nodup n hn) (fun q hq => hwf.parents_mem n hn q hq) hpend1, h1]
    have hlen : ((g.dep_parents n).length : ℚ) ≠ 0 := by
      cases hq : g.dep_parents n with
      | nil => exact absurd hq hp
      | cons p ps =>
        simp only [hq, List.length_cons, Nat.cast_add, Nat.cast_one]
        exact Nat.cast_add_one_ne_zero ps.length
    rw [hb]
    field_simp

/-! The main invariant argument, by induction on the fuel. -/

theorem visitChildren_conserves (g : PkgGraph) (hwf : WFGraph g) (fuel : Nat)
    (hvisit : ∀ n ∈ g.names, depthOKb g fuel n = true → ∀ s : Sizes, ChildrenClosed g s →
      ChildrenClosed g (_recurse_reassign_blame g fuel n s) ∧
      totalSize g (_recurse_reassign_blame g fuel n s) = totalSize g s) :
    ∀ (cs : List String), (∀ c ∈ cs, c ∈ g.names ∧ depthOKb g fuel c = true) →
      ∀ s : Sizes, ChildrenClosed g s →
        ChildrenClosed g (visitChildren (_recurse_reassign_blame g fuel) cs s) ∧
        totalSize g (visitChildren (_recurse_reassign_blame g fuel) cs s) = totalSize g s := by
  intro cs
  induction cs with
  | nil => intro _ s hcc; exact ⟨hcc, rfl⟩
  | cons c cs ih =>
    intro hmem s hcc
    have hc := hmem c (List.mem_cons_self c cs)
    have h1 := hvisit c hc.1 hc.2 s hcc
    have h2 := ih (fun c' hc' => hmem c' (List.mem_cons_of_mem c hc')) _ h1.1
    exact ⟨h2.1, h2.2.trans h1.2⟩

theorem visit_conserves (g : PkgGraph) (hwf : WFGraph g) :
    ∀ (fuel : Nat), ∀ n ∈ g.names, depthOKb g fuel n = true →
      ∀ s : Sizes, ChildrenClosed g s →
        ChildrenClosed g (_recurse_reassign_blame g fuel n s) ∧
        totalSize g (_recurse_reassign_blame g fuel n s) = totalSize g s := by
  intro fuel
  induction fuel with
  | zero =>
    intro n hn hdep s hcc
    cases h : s n with
    | none => rw [visit_entry_none g _ n s h]; exact ⟨hcc, rfl⟩
    | some v =>
      rw [visit_zero g n s v h]
      have hch : ∀ c ∈ g.dep_children n, s c = none := by
        intro c hc
        have : g.dep_children n = [] := by
          simpa [depthOKb, List.isEmpty_iff] using hdep
        rw [this] at hc
        exact absurd hc (List.not_mem_nil c)
      cases hp : g.dep_parents n with
      | nil => rw [collapse_no_parents g n s v h hp]; exact ⟨hcc, rfl⟩
      | cons p ps =>
        exact collapse_conserves g hwf n hn s hcc v h hch (by simp [hp])
  | succ f ih =>
    intro n hn hdep s hcc
    cases h : s n with
    | none => rw [visit_entry_none g _ n s h]; exact ⟨hcc, rfl⟩
    | some v =>
      rw [visit_succ g f n s v h]
      have hdep' : ∀ c ∈ g.dep_children n, depthOKb g f c = true := by
        intro c hc
        have := hdep
        simp only [depthOKb, List.all_eq_true] at this
        exact this c hc
      have hsub := visitChildren_conserves g hwf f ih (g.dep_children n)
        (fun c hc => ⟨hwf.children_mem n hn c hc, hdep' c hc⟩) s hcc
      set s1 := visitChildren (_recurse_reassign_blame g f) (g.dep_children n) s with hs1
      cases h1 : s1 n with
      | none => rw [collapse_entry_none g n s1 h1]; exact hsub
      | some v1 =>
        cases hp : g.dep_parents n with
        | nil => rw [collapse_no_parents g n s1 v1 h1 hp]; exact hsub
        | cons p ps =>
          have hch : ∀ c ∈ g.dep_children n, s1 c = none := by
            intro c hc
            have hpne : g.dep_parents c ≠ [] :=
              List.ne_nil_of_mem (hwf.child_parent n hn c hc)
            exact visitChildren_post g f (g.dep_children n) s c hc hpne
          have hcol := collapse_conserves g hwf n hn s1 hsub.1 v1 h1 hch (by simp [hp])
          exact ⟨hcol.1, hcol.2.trans hsub.2⟩

theorem reassign_conserves (g : PkgGraph) (hwf : WFGraph g) :
    ∀ (rs : List String), (∀ r ∈ rs, r ∈ g.names ∧ depthOKb g MAX_DEPTH r = true) →
      ∀ s : Sizes, ChildrenClosed g s →
        ChildrenClosed g (reassign_blame g rs s) ∧
        totalSize g (reassign_blame g rs s) = totalSize g s := by
  intro rs
  induction rs with
  | nil => intro _ s hcc; exact ⟨hcc, rfl⟩
  | cons r rs ih =>
    intro hmem s hcc
    have hr := hmem r (List.mem_cons_self r rs)
    have h1 := visit_conserves g hwf MAX_DEPTH r hr.1 hr.2 s hcc
    have h2 := ih (fun r' hr' => hmem r' (List.mem_cons_of_mem r hr')) _ h1.1
    exact ⟨h2.1, h2.2.trans h1.2⟩

/-! After `reassign_blame`, every processed entry is either collapsed
or has all of its parented children collapsed. -/

theorem reassign_mono (g : PkgGraph) :
    ∀ (rs : List String) (s : Sizes) (m : String), s m = none →
      reassign_blame g rs s m = none := by
  intro rs
  induction rs with
  | nil => intro s m h; exact h
  | cons r rs ih => intro s m h; exact ih _ m (visit_mono g MAX_DEPTH r s m h)

theorem reassign_post (g : PkgGraph) :
    ∀ (rs : List String) (s : Sizes) (r : String), r ∈ rs →
      reassign_blame g rs s r = none ∨
      ∀ c ∈ g.dep_children r, g.dep_parents c ≠ [] → reassign_blame g rs s c = none := by
  intro rs
  induction rs with
  | nil => intro s r hr; exact absurd hr (List.not_mem_nil r)
  | cons r0 rs ih =>
    intro s r hr
    rcases List.mem_cons.1 hr with rfl | hr'
    · by_cases h0 : _recurse_reassign_blame g MAX_DEPTH r s r = none
      · exact Or.inl (reassign_mono g rs _ r h0)
      · right
        intro c hc hpne
        cases hs : s r with
        | none => exact absurd (by rw [visit_entry_none g _ r s hs]; exact hs) h0
        | some v =>
          have hmd : MAX_DEPTH = 9 + 1 := rfl
          have hvc : _recurse_reassign_blame g MAX_DEPTH r s c = none := by
            rw [hmd, visit_succ g 9 r s v hs]
            exact collapse_mono g r _ c (visitChildren_post g 9 (g.dep_children r) s c hc hpne)
          exact reassign_mono g rs _ c hvc
    · exact ih _ r hr'

/-! Collapsedness propagates down reachability once the traversal is
finished, because of the `ChildrenClosed` invariant. -/

theorem closed_reach_none (g : PkgGraph) (hwf : WFGraph g) (t : Sizes)
    (hcc : ChildrenClosed g t) :
    ∀ (k : Nat) (c : String), c ∈ g.names → t c = none → ∀ m, reachb g k c m = true →
      t m = none := by
  intro k
  induction k with
  | zero =>
    intro c hc hnone m hreach
    have : c = m := by simpa [reachb] using hreach
    exact this ▸ hnone
  | succ k ih =>
    intro c hc hnone m hreach
    simp only [reachb, Bool.or_eq_true, List.any_eq_true] at hreach
    rcases hreach with heq | ⟨c', hc', hreach'⟩
    · have : c = m := by simpa using heq
      exact this ▸ hnone
    · exact ih c' (hwf.children_mem c hc c' hc') (hcc c hc hnone c' hc') m hreach'

/-! Summation split over roots and non-roots. -/

theorem sum_filter_split (l : List String) (f : String → ℚ) (p : String → Bool) :
    ((l.filter p).map f).sum + ((l.filter (fun x => !p x)).map f).sum = (l.map f).sum := by
  induction l with
  | nil => simp
  | cons a l ih =>
    cases h : p a with
    | true =>
      simp only [List.filter_cons, h, Bool.not_true, if_true, if_false, List.map_cons,
        List.sum_cons, Bool.false_eq_true]
      rw [← ih]
      ring
    | false =>
      simp only [List.filter_cons, h, Bool.not_false, if_true, if_false, List.map_cons,
        List.sum_cons, Bool.false_eq_true]
      rw [← ih]
      ring

/-! Engine-level consequences. -/

theorem reachb_succ_unfold (g : PkgGraph) (k : Nat) (a b : String) :
    reachb g (k + 1) a b =
      (a == b || (g.dep_children a).any (fun c => reachb g k c b)) := rfl

theorem root_parents_empty (g : PkgGraph) (r : String) (hr : r ∈ pick_root_packages g) :
    g.dep_parents r = [] := by
  have := (List.mem_filter.1 hr).2
  simpa [List.isEmpty_iff] using this

theorem runEngine_conserves (g : PkgGraph) (hwf : WFGraph g)
    (hdep : ∀ r ∈ pick_root_packages g, depthOKb g MAX_DEPTH r = true) (s : Sizes)
    (hcc : ChildrenClosed g s) :
    ChildrenClosed g (runEngine g s) ∧ totalSize g (runEngine g s) = totalSize g s :=
  reassign_conserves g hwf _ (fun r hr => ⟨(List.mem_filter.1 hr).1, hdep r hr⟩) s hcc

theorem runEngine_nonroot_none (g : PkgGraph) (hwf : WFGraph g) (own : String → ℚ)
    (hdep : ∀ r ∈ pick_root_packages g, depthOKb g MAX_DEPTH r = true)
    (n : String) (hn : n ∈ g.names) (hp : g.dep_parents n ≠ [])
    (hr : ∃ r ∈ pick_root_packages g, reachb g MAX_DEPTH r n = true) :
    runEngine g (fun m => some (own m)) n = none := by
  have hcc0 : ChildrenClosed g (fun m => some (own m)) := by
    intro m _ hnone
    exact absurd hnone (by simp)
  have hcct := (runEngine_conserves g hwf hdep _ hcc0).1
  obtain ⟨r, hrmem, hrr⟩ := hr
  have hrroot : g.dep_parents r = [] := root_parents_empty g r hrmem
  have hrn : r ≠ n := fun he => hp (he ▸ hrroot)
  have htr : runEngine g (fun m => some (own m)) r ≠ none :=
    reassign_parentless_stays g _ _ r hrroot (by simp)
  have hrnames : r ∈ g.names := (List.mem_filter.1 hrmem).1
  rcases reassign_post g (pick_root_packages g) (fun m => some (own m)) r hrmem with h | hpost
  · exact absurd h htr
  · have hmd : MAX_DEPTH = 9 + 1 := rfl
    rw [hmd, reachb_succ_unfold] at hrr
    simp only [Bool.or_eq_true, List.any_eq_true, beq_iff_eq] at hrr
    rcases hrr with heq | ⟨c, hc, hreach9⟩
    · exact absurd heq hrn
    · have hcpar : g.dep_parents c ≠ [] :=
        List.ne_nil_of_mem (hwf.child_parent r hrnames c hc)
      have htc := hpost c hc hcpar
      have hcnames : c ∈ g.names := hwf.children_mem r hrnames c hc
      exact closed_reach_none g hwf _ hcct 9 c hcnames htc n hreach9

theorem runEngine_root_sum (g : PkgGraph) (hwf : WFGraph g) (own : String → ℚ)
    (hdep : ∀ r ∈ pick_root_packages g, depthOKb g MAX_DEPTH r = true)
    (hreach : ∀ n ∈ g.names, g.dep_parents n ≠ [] →
      ∃ r ∈ pick_root_packages g, reachb g MAX_DEPTH r n = true) :
    ((pick_root_packages g).map
      (fun r => (runEngine g (fun m => some (own m)) r).getD 0)).sum =
    (g.names.map own).sum := by
  have hcc0 : ChildrenClosed g (fun m => some (own m)) := by
    intro m _ hnone
    exact absurd hnone (by simp)
  have htot := (runEngine_conserves g hwf hdep _ hcc0).2
  have htot0 : totalSize g (fun m => some (own m)) = (g.names.map own).sum := by
    unfold totalSize
    congr 1
  have hzero : ((g.names.filter (fun x => !(g.dep_parents x).isEmpty)).map
      (fun n => (runEngine g (fun m => some (own m)) n).getD 0)).sum = 0 := by
    apply List.sum_eq_zero
    intro y hy
    rcases List.mem_map.1 hy with ⟨x, hx, rfl⟩
    have hxm := List.mem_filter.1 hx
    have hxp : g.dep_parents x ≠ [] := by
      intro he
      have : (g.dep_parents x).isEmpty = true := by simp [he]
      rw [this] at hxm
      exact Bool.noConfusion hxm.2
    rw [runEngine_nonroot_none g hwf own hdep x hxm.1 hxp (hreach x hxm.1 hxp)]
    rfl
  have hsplit := sum_filter_split g.names
    (fun n => (runEngine g (fun m => some (own m)) n).getD 0)
    (fun n => (g.dep_parents n).isEmpty)
  rw [show (pick_root_packages g).map
      (fun r => (runEngine g (fun m => some (own m)) r).getD 0) =
      (g.names.filter (fun n => (g.dep_parents n).isEmpty)).map
      (fun n => (runEngine g (fun m => some (own m)) n).getD 0) from rfl]
  have : totalSize g (runEngine g (fun m => some (own m))) =
      (g.names.map (fun n => (runEngine g (fun m => some (own m)) n).getD 0)).sum := rfl
  rw [← htot0, ← htot, this, ← hsplit, hzero, add_zero]

/-! Well-formedness of the concrete example graphs. -/

theorem wfCyc : WFGraph gCyc := by
  refine ⟨?_, ?_, ?_, ?_, ?_, ?_⟩ <;> decide

theorem wfChain : WFGraph gChain := by
  refine ⟨?_, ?_, ?_, ?_, ?_, ?_⟩ <;> decide

theorem wfDia : WFGraph gDia := by
  refine ⟨?_, ?_, ?_, ?_, ?_, ?_⟩ <;> decide

/-- C1, amended: the engine is entered by invoking the traversal once
per detected root package (`main` passes `pick_root_packages(...)` to
`reassign_blame`), not once per node; entering the traversal on an
already-collapsed node is a no-op. -/
theorem C1_roots_entry_collapsed_noop (g : PkgGraph) :
    (∀ s : Sizes, runEngine g s = reassign_blame g (pick_root_packages g) s) ∧
    (∀ (fuel : Nat) (n : String) (s : Sizes), s n = none →
      _recurse_reassign_blame g fuel n s = s) :=
  ⟨fun _ => rfl, fun fuel n s h => visit_entry_none g fuel n s h⟩

/-- Witness for C1: in the two-node cycle state, node `c` is absent
hence collapsed, and visiting it changes nothing. -/
theorem C1_roots_entry_collapsed_noop_witness :
    sCyc "c" = none ∧ _recurse_reassign_blame gCyc MAX_DEPTH "c" sCyc = sCyc :=
  ⟨by decide, (C1_roots_entry_collapsed_noop gCyc).2 MAX_DEPTH "c" sCyc (by decide)⟩

/-- C1 counterexample: on the two-node dependency cycle the detected
root list is empty, so the engine as invoked by `main` visits no node
at all and leaves `a` pending, whereas a traversal started from every
node of the map would collapse `a`.  The entry point is therefore not
"every node in the package map". -/
theorem C1_counterexample :
    pick_root_packages gCyc = [] ∧ gCyc.names ≠ [] ∧
    runEngine gCyc sCyc "a" = some 1 ∧
    reassign_blame gCyc gCyc.names sCyc "a" = none := by
  refine ⟨by decide, by decide, by decide, by decide⟩

/-- C2, amended: for every graph built per the GraphBuilder contract
in which every dependency path out of a root has length at most
`MAX_DEPTH` and every package with a parent is reachable from some
detected root within `MAX_DEPTH` steps, after the engine runs to
completion every package with at least one parent is collapsed, every
package with no parents is non-collapsed, and the roots' final sizes
sum to the total of all own sizes (all downstream footprints end up
blamed onto the roots). -/
theorem C2_final_state_dichotomy (g : PkgGraph) (hwf : WFGraph g) (own : String → ℚ)
    (hdep : ∀ r ∈ pick_root_packages g, depthOKb g MAX_DEPTH r = true)
    (hreach : ∀ n ∈ g.names, g.dep_parents n ≠ [] →
      ∃ r ∈ pick_root_packages g, reachb g MAX_DEPTH r n = true) :
    (∀ n ∈ g.names, g.dep_parents n ≠ [] →
      runEngine g (fun m => some (own m)) n = none) ∧
    (∀ n ∈ g.names, g.dep_parents n = [] →
      ∃ v, runEngine g (fun m => some (own m)) n = some v) ∧
    ((pick_root_packages g).map
      (fun r => (runEngine g (fun m => some (own m)) r).getD 0)).sum =
      (g.names.map own).sum := by
  refine ⟨?_, ?_, runEngine_root_sum g hwf own hdep hreach⟩
  · intro n hn hp
    exact runEngine_nonroot_none g hwf own hdep n hn hp (hreach n hn hp)
  · intro n _ hp
    have := reassign_parentless_stays g (pick_root_packages g)
      (fun m => some (own m)) n hp (by simp)
    cases h : runEngine g (fun m => some (own m)) n with
    | none => exact absurd h this
    | some v => exact ⟨v, rfl⟩

/-- Witness for C2: the diamond of spec §8; `dd` (a dependency) ends
collapsed and the sole root `ra` ends pending. -/
theorem C2_final_state_dichotomy_witness :
    runEngine gDia (fun m => some (ownDia m)) "dd" = none ∧
    (∃ v, runEngine gDia (fun m => some (ownDia m)) "ra" = some v) :=
  ⟨(C2_final_state_dichotomy gDia wfDia ownDia (by decide) (by decide)).1 "dd"
      (by decide) (by decide),
   (C2_final_state_dichotomy gDia wfDia ownDia (by decide) (by decide)).2.1 "ra"
      (by decide) (by decide)⟩

/-- C2 counterexample: the two-node cycle is a graph built per the
GraphBuilder contract on which the engine as coded (entered from
detected roots only, of which there are none) terminates with node
`a` still non-collapsed although `a` has a parent. -/
theorem C2_counterexample :
    WFGraph gCyc ∧ "a" ∈ gCyc.names ∧ gCyc.dep_parents "a" ≠ [] ∧
    runEngine gCyc sCyc "a" = some 1 :=
  ⟨wfCyc, by decide, by decide, by decide⟩

/-- C3, amended: for every dependency graph with no cycles (all own
sizes non-negative or not) in which every package lies within
`MAX_DEPTH` dependency steps of a detected root — so the depth cutoff
is never hit and no package is left unvisited — the sum of the final
sizes of all root packages equals the sum of the original own sizes of
all packages. -/
theorem C3_sum_conservation (g : PkgGraph) (hwf : WFGraph g) (own : String → ℚ)
    (hdep : ∀ r ∈ pick_root_packages g, depthOKb g MAX_DEPTH r = true)
    (hreach : ∀ n ∈ g.names, g.dep_parents n ≠ [] →
      ∃ r ∈ pick_root_packages g, reachb g MAX_DEPTH r n = true) :
    ((pick_root_packages g).map
      (fun r => (runEngine g (fun m => some (own m)) r).getD 0)).sum =
    (g.names.map own).sum :=
  runEngine_root_sum g hwf own hdep hreach

/-- Witness for C3: the diamond of spec §8 conserves the total
10 + 5 + 5 + 8 = 28 onto the root `ra`. -/
theorem C3_sum_conservation_witness :
    ((pick_root_packages gDia).map
      (fun r => (runEngine gDia (fun m => some (ownDia m)) r).getD 0)).sum =
    (gDia.names.map ownDia).sum :=
  C3_sum_conservation gDia wfDia ownDia (by decide) (by decide)

/-- C3 counterexample: the 13-node chain `a → ⋯ → m` has no cycles
(no node can reach itself) and all own sizes 1, yet the root sum after
the engine runs is 11 while the total own size is 13: the depth cutoff
strands the sizes of `l` and `m`. -/
theorem C3_counterexample :
    WFGraph gChain ∧
    (∀ n ∈ gChain.names, ∀ c ∈ gChain.dep_children n, reachb gChain 13 c n = false) ∧
    (∀ n ∈ gChain.names, sChain n = some 1) ∧
    ((pick_root_packages gChain).map (fun r => (runEngine gChain sChain r).getD 0)).sum = 11 ∧
    (gChain.names.map (fun n => (sChain n).getD 0)).sum = 13 := by
  refine ⟨wfChain, by decide, by decide, ?_, ?_⟩ <;> with_unfolding_all decide

/-! Re-running the engine is a no-op (C5). -/

theorem visitChildren_all_collapsed (g : PkgGraph) (fuel : Nat) :
    ∀ (cs : List String) (s : Sizes), (∀ c ∈ cs, s c = none) →
      visitChildren (_recurse_reassign_blame g fuel) cs s = s := by
  intro cs
  induction cs with
  | nil => intro s _; rfl
  | cons c cs ih =>
    intro s h
    have h0 : _recurse_reassign_blame g fuel c s = s :=
      visit_entry_none g fuel c s (h c (List.mem_cons_self c cs))
    show visitChildren (_recurse_reassign_blame g fuel) cs
      (_recurse_reassign_blame g fuel c s) = s
    rw [h0]
    exact ih s (fun c' hc' => h c' (List.mem_cons_of_mem c hc'))

theorem visit_settled_root_noop (g : PkgGraph) (r : String) (t : Sizes) (v : ℚ)
    (hv : t r = some v) (hroot : g.dep_parents r = [])
    (hch : ∀ c ∈ g.dep_children r, t c = none) :
    _recurse_reassign_blame g MAX_DEPTH r t = t := by
  have hmd : MAX_DEPTH = 9 + 1 := rfl
  rw [hmd, visit_succ g 9 r t v hv, visitChildren_all_collapsed g 9 _ t hch]
  exact collapse_no_parents g r t v hv hroot

theorem reassign_settled_noop (g : PkgGraph) :
    ∀ (rs : List String) (t : Sizes),
      (∀ r ∈ rs, g.dep_parents r = [] ∧
        (t r = none ∨ ∀ c ∈ g.dep_children r, t c = none)) →
      reassign_blame g rs t = t := by
  intro rs
  induction rs with
  | nil => intro t _; rfl
  | cons r rs ih =>
    intro t h
    have hr := h r (List.mem_cons_self r rs)
    have h0 : _recurse_reassign_blame g MAX_DEPTH r t = t := by
      rcases hr.2 with hnone | hch
      · exact visit_entry_none g MAX_DEPTH r t hnone
      · cases hv : t r with
        | none => exact visit_entry_none g MAX_DEPTH r t hv
        | some v => exact visit_settled_root_noop g r t v hv hr.1 hch
    show reassign_blame g rs (_recurse_reassign_blame g MAX_DEPTH r t) = t
    rw [h0]
    exact ih t (fun r' hr' => h r' (List.mem_cons_of_mem r hr'))

/-- C5: re-running the engine on an already-processed graph changes
nothing.  For every graph built per the GraphBuilder contract and any
starting sizes, a second complete engine run returns the state of the
first run unchanged: every call of the second pass finds the node
already collapsed or an already-settled root. -/
theorem C5_second_run_noop (g : PkgGraph) (hwf : WFGraph g) (s : Sizes) :
    runEngine g (runEngine g s) = runEngine g s := by
  apply reassign_settled_noop
  intro r hr
  refine ⟨root_parents_empty g r hr, ?_⟩
  have hrnames : r ∈ g.names := (List.mem_filter.1 hr).1
  rcases reassign_post g (pick_root_packages g) s r hr with h | hpost
  · exact Or.inl h
  · right
    intro c hc
    exact hpost c hc (List.ne_nil_of_mem (hwf.child_parent r hrnames c hc))

/-- Witness for C5 on the diamond graph of spec §8. -/
theorem C5_second_run_noop_witness :
    runEngine gDia (runEngine gDia (fun m => some (ownDia m))) =
      runEngine gDia (fun m => some (ownDia m)) :=
  C5_second_run_noop gDia wfDia (fun m => some (ownDia m))

/-- C6: collapse is permanent and isolating.  A collapsed node never
receives further blame (it stays collapsed through any traversal, and
a share directed at a collapsed parent is silently dropped — the
parent loop just moves on to the next parent, with no error), and a
collapsed node never emits further blame (re-visiting it returns the
state unchanged). -/
theorem C6_collapse_permanent (g : PkgGraph) :
    (∀ (fuel : Nat) (n : String) (s : Sizes) (m : String), s m = none →
      _recurse_reassign_blame g fuel n s m = none) ∧
    (∀ (fuel : Nat) (n : String) (s : Sizes), s n = none →
      _recurse_reassign_blame g fuel n s = s) ∧
    (∀ (b : ℚ) (q : String) (ps : List String) (s : Sizes), s q = none →
      blameParents b (q :: ps) s = blameParents b ps s) := by
  refine ⟨fun fuel n s m h => visit_mono g fuel n s m h,
    fun fuel n s h => visit_entry_none g fuel n s h, ?_⟩
  intro b q ps s h
  simp [blameParents, h]

/-- Witness for C6 on the two-node cycle state, at the collapsed
(absent) node `c`. -/
theorem C6_collapse_permanent_witness :
    sCyc "c" = none ∧
    _recurse_reassign_blame gCyc MAX_DEPTH "a" sCyc "c" = none ∧
    blameParents 1 ("c" :: ["a"]) sCyc = blameParents 1 ["a"] sCyc :=
  ⟨by decide, (C6_collapse_permanent gCyc).1 MAX_DEPTH "a" sCyc "c" (by decide),
    (C6_collapse_permanent gCyc).2.2 1 "c" ["a"] sCyc (by decide)⟩

/-! Sizes of pending nodes only ever grow (C10). -/

theorem blameParents_nonneg (b : ℚ) (hb : 0 ≤ b) :
    ∀ (ps : List String) (s : Sizes), NonNegSizes s →
      NonNegSizes (blameParents b ps s) := by
  intro ps
  induction ps with
  | nil => intro s h; exact h
  | cons q ps ih =>
    intro s h
    cases hq : s q with
    | none => simpa [blameParents, hq] using ih s h
    | some u =>
      simp only [blameParents, hq]
      apply ih
      intro m v hm
      by_cases hmq : m = q
      · subst hmq
        rw [Function.update_same] at hm
        have hu : 0 ≤ u := h m u hq
        have := Option.some.inj hm
        rw [← this]
        exact add_nonneg hu hb
      · rw [Function.update_noteq hmq] at hm
        exact h m v hm

theorem blameParents_le (b : ℚ) (hb : 0 ≤ b) :
    ∀ (ps : List String) (s : Sizes) (m : String) (v w : ℚ), s m = some v →
      blameParents b ps s m = some w → v ≤ w := by
  intro ps
  induction ps with
  | nil =>
    intro s m v w hv hw
    have hw' : s m = some w := hw
    exact le_of_eq (Option.some.inj (hv.symm.trans hw'))
  | cons q ps ih =>
    intro s m v w hv hw
    cases hq : s q with
    | none =>
      rw [show blameParents b (q :: ps) s = blameParents b ps s by simp [blameParents, hq]] at hw
      exact ih s m v w hv hw
    | some u =>
      rw [show blameParents b (q :: ps) s =
        blameParents b ps (Function.update s q (some (u + b))) by simp [blameParents, hq]] at hw
      by_cases hmq : m = q
      · subst hmq
        have hvu : v = u := Option.some.inj (hv.symm.trans hq)
        have h2 : (Function.update s m (some (u + b))) m = some (u + b) :=
          Function.update_same m _ s
        have := ih _ m (u + b) w h2 hw
        rw [hvu]
        exact le_trans (le_add_of_nonneg_right hb) this
      · have h2 : (Function.update s q (some (u + b))) m = some v := by
          rw [Function.update_noteq hmq]; exact hv
        exact ih _ m v w h2 hw

theorem collapse_nonneg_le (g : PkgGraph) (n : String) (s : Sizes) (hnn : NonNegSizes s) :
    NonNegSizes (collapseIfNeeded g n s) ∧
    (∀ m v w, s m = some v → collapseIfNeeded g n s m = some w → v ≤ w) := by
  cases hv : s n with
  | none =>
    rw [collapse_entry_none g n s hv]
    exact ⟨hnn, fun m v w h1 h2 => le_of_eq (Option.some.inj (h1.symm.trans h2))⟩
  | some sz =>
    cases hp : g.dep_parents n with
    | nil =>
      rw [collapse_no_parents g n s sz hv hp]
      exact ⟨hnn, fun m v w h1 h2 => le_of_eq (Option.some.inj (h1.symm.trans h2))⟩
    | cons p ps =>
      rw [collapse_eq_blame g n s sz hv (by simp [hp])]
      have hb : 0 ≤ sz / ((g.dep_parents n).length : ℚ) :=
        div_nonneg (hnn n sz hv) (Nat.cast_nonneg _)
      have hnn1 : NonNegSizes (Function.update s n none) := by
        intro m v hm
        by_cases hmn : m = n
        · subst hmn; rw [Function.update_same] at hm; exact Option.noConfusion hm
        · rw [Function.update_noteq hmn] at hm; exact hnn m v hm
      refine ⟨blameParents_nonneg _ hb _ _ hnn1, ?_⟩
      intro m v w hv' hw
      by_cases hmn : m = n
      · exfalso
        have hnone : blameParents (sz / ((g.dep_parents n).length : ℚ)) (g.dep_parents n)
            (Function.update s n none) n = none := by
          rw [blameParents_none_iff]
          exact Function.update_same n none s
        rw [hmn, hnone] at hw
        exact Option.noConfusion hw
      · have h2 : (Function.update s n none) m = some v := by
          rw [Function.update_noteq hmn]; exact hv'
        exact blameParents_le _ hb _ _ m v w h2 hw

theorem visit_nonneg_le (g : PkgGraph) :
    ∀ (fuel : Nat) (n : String) (s : Sizes), NonNegSizes s →
      NonNegSizes (_recurse_reassign_blame g fuel n s) ∧
      (∀ m v w, s m = some v → _recurse_reassign_blame g fuel n s m = some w → v ≤ w) := by
  intro fuel
  induction fuel with
  | zero =>
    intro n s hnn
    cases hv : s n with
    | none =>
      rw [visit_entry_none g _ n s hv]
      exact ⟨hnn, fun m v w h1 h2 => le_of_eq (Option.some.inj (h1.symm.trans h2))⟩
    | some v =>
      rw [visit_zero g n s v hv]
      exact collapse_nonneg_le g n s hnn
  | succ f ih =>
    intro n s hnn
    cases hv : s n with
    | none =>
      rw [visit_entry_none g _ n s hv]
      exact ⟨hnn, fun m v w h1 h2 => le_of_eq (Option.some.inj (h1.symm.trans h2))⟩
    | some v =>
      rw [visit_succ g f n s v hv]
      have hlist : ∀ (cs : List String) (t : Sizes), NonNegSizes t →
          NonNegSizes (visitChildren (_recurse_reassign_blame g f) cs t) ∧
          (∀ m u w, t m = some u →
            visitChildren (_recurse_reassign_blame g f) cs t m = some w → u ≤ w) := by
        intro cs
        induction cs with
        | nil =>
          intro t ht
          exact ⟨ht, fun m u w h1 h2 => le_of_eq (Option.some.inj (h1.symm.trans h2))⟩
        | cons c cs ihc =>
          intro t ht
          have h1 := ih c t ht
          have h2 := ihc _ h1.1
          refine ⟨h2.1, ?_⟩
          intro m u w hu hw
          cases hmid : _recurse_reassign_blame g f c t m with
          | none =>
            have : visitChildren (_recurse_reassign_blame g f) cs
                (_recurse_reassign_blame g f c t) m = none :=
              visitChildren_mono g f cs _ m hmid
            rw [show visitChildren (_recurse_reassign_blame g f) (c :: cs) t =
              visitChildren (_recurse_reassign_blame g f) cs
                (_recurse_reassign_blame g f c t) from rfl] at hw
            rw [this] at hw
            exact Option.noConfusion hw
          | some u' =>
            have ha := h1.2 m u u' hu hmid
            have hb := h2.2 m u' w hmid hw
            exact le_trans ha hb
      have hsub := hlist (g.dep_children n) s hnn
      set s1 := visitChildren (_recurse_reassign_blame g f) (g.dep_children n) s with hs1
      have hcol := collapse_nonneg_le g n s1 hsub.1
      refine ⟨hcol.1, ?_⟩
      intro m u w hu hw
      cases hmid : s1 m with
      | none =>
        rw [collapse_mono g n s1 m hmid] at hw
        exact Option.noConfusion hw
      | some u' =>
        exact le_trans (hsub.2 m u u' hu hmid) (hcol.2 m u' w hmid hw)

theorem reassign_nonneg_le (g : PkgGraph) :
    ∀ (rs : List String) (s : Sizes), NonNegSizes s →
      NonNegSizes (reassign_blame g rs s) ∧
      (∀ m v w, s m = some v → reassign_blame g rs s m = some w → v ≤ w) := by
  intro rs
  induction rs with
  | nil =>
    intro s hnn
    exact ⟨hnn, fun m v w h1 h2 => le_of_eq (Option.some.inj (h1.symm.trans h2))⟩
  | cons r rs ih =>
    intro s hnn
    have h1 := visit_nonneg_le g MAX_DEPTH r s hnn
    have h2 := ih _ h1.1
    refine ⟨h2.1, ?_⟩
    intro m v w hv hw
    cases hmid : _recurse_reassign_blame g MAX_DEPTH r s m with
    | none =>
      have : reassign_blame g rs (_recurse_reassign_blame g MAX_DEPTH r s) m = none :=
        reassign_mono g rs _ m hmid
      rw [show reassign_blame g (r :: rs) s =
        reassign_blame g rs (_recurse_reassign_blame g MAX_DEPTH r s) from rfl, this] at hw
      exact Option.noConfusion hw
    | some u =>
      exact le_trans (h1.2 m v u hv hmid) (h2.2 m u w hmid hw)

/-- C10: with non-negative initial sizes, a still-pending node's size
never decreases — across any single traversal step and across the
whole engine run — so it always remains at least its original own
size; in particular a root (no parents) survives the run pending with
a final size at least its own size. -/
theorem C10_pending_sizes_monotone (g : PkgGraph) (s : Sizes) (hnn : NonNegSizes s) :
    (∀ (fuel : Nat) (n m : String) (v w : ℚ), s m = some v →
      _recurse_reassign_blame g fuel n s m = some w → v ≤ w) ∧
    (∀ (m : String) (v w : ℚ), s m = some v → runEngine g s m = some w → v ≤ w) ∧
    (∀ (m : String) (v : ℚ), g.dep_parents m = [] → s m = some v →
      ∃ w, runEngine g s m = some w ∧ v ≤ w) := by
  refine ⟨fun fuel n m v w hv hw => (visit_nonneg_le g fuel n s hnn).2 m v w hv hw,
    fun m v w hv hw => (reassign_nonneg_le g _ s hnn).2 m v w hv hw, ?_⟩
  intro m v hroot hv
  have hstay : runEngine g s m ≠ none :=
    reassign_parentless_stays g _ s m hroot (hv ▸ fun h => Option.noConfusion h)
  cases hw : runEngine g s m with
  | none => exact absurd hw hstay
  | some w => exact ⟨w, rfl, (reassign_nonneg_le g _ s hnn).2 m v w hv hw⟩

/-- Witness for C10: an all-zero size assignment on the diamond graph;
the root `ra` survives with a size at least its own size. -/
theorem C10_pending_sizes_monotone_witness :
    gDia.dep_parents "ra" = [] ∧
    (∃ w, runEngine gDia (fun _ => some (0:ℚ)) "ra" = some w ∧ (0:ℚ) ≤ w) :=
  ⟨by decide,
    (C10_pending_sizes_monotone gDia (fun _ => some (0:ℚ))
      (fun _ v h => le_of_eq (Option.some.inj h))).2.2 "ra" 0 (by decide) rfl⟩

/-! Totality of the traversal (C4): the checked traversal never
fails a dictionary lookup and never exceeds the depth bound. -/

theorem blameParentsChk_ok (g : PkgGraph) (b : ℚ) :
    ∀ (ps : List String) (s : Sizes), (∀ q ∈ ps, q ∈ g.names) →
      blameParentsChk g b ps s = some (blameParents b ps s) := by
  intro ps
  induction ps with
  | nil => intro s _; rfl
  | cons q ps ih =>
    intro s hmem
    have hq : q ∈ g.names := hmem q (List.mem_cons_self q ps)
    cases hs : s q with
    | none =>
      simp only [blameParentsChk, blameParents, hs, if_pos hq]
      exact ih s (fun p hp => hmem p (List.mem_cons_of_mem q hp))
    | some v =>
      simp only [blameParentsChk, blameParents, hs, if_pos hq]
      exact ih _ (fun p hp => hmem p (List.mem_cons_of_mem q hp))

theorem collapseChk_ok (g : PkgGraph) (n : String) (s : Sizes)
    (hp : ∀ q ∈ g.dep_parents n, q ∈ g.names) :
    collapseIfNeededChk g n s = some (collapseIfNeeded g n s) := by
  cases hv : s n with
  | none => simp [collapseIfNeededChk, collapseIfNeeded, hv]
  | some sz =>
    cases hq : g.dep_parents n with
    | nil => simp [collapseIfNeededChk, collapseIfNeeded, hv, hq]
    | cons p ps =>
      simp only [collapseIfNeededChk, collapseIfNeeded, hv, hq]
      rw [← hq]
      exact blameParentsChk_ok g _ (g.dep_parents n) _ hp

theorem visitChk_ok (g : PkgGraph) (hwf : WFGraph g) :
    ∀ (fuel : Nat), ∀ n ∈ g.names, ∀ (depth : Nat) (s : Sizes),
      ∃ d, visitChk g fuel depth n s =
          some (_recurse_reassign_blame g fuel n s, d) ∧ d ≤ depth + fuel := by
  intro fuel
  induction fuel with
  | zero =>
    intro n hn depth s
    cases hv : s n with
    | none =>
      refine ⟨depth, ?_, Nat.le_refl _⟩
      rw [visit_entry_none g _ n s hv]
      simp [visitChk, hv]
    | some v =>
      refine ⟨depth, ?_, Nat.le_refl _⟩
      rw [visit_zero g n s v hv]
      simp [visitChk, hv, collapseChk_ok g n s (hwf.parents_mem n hn)]
  | succ f ih =>
    intro n hn depth s
    cases hv : s n with
    | none =>
      refine ⟨depth, ?_, Nat.le_add_right depth _⟩
      rw [visit_entry_none g _ n s hv]
      simp [visitChk, hv]
    | some v =>
      have hlist : ∀ (cs : List String), (∀ c ∈ cs, c ∈ g.names) → ∀ t : Sizes,
          ∃ ds, visitChildrenChk g (visitChk g f (depth + 1)) cs t =
              some (visitChildren (_recurse_reassign_blame g f) cs t, ds) ∧
            ds ≤ depth + 1 + f := by
        intro cs
        induction cs with
        | nil => intro _ t; exact ⟨0, rfl, Nat.zero_le _⟩
        | cons c cs ihc =>
          intro hmem t
          have hc : c ∈ g.names := hmem c (List.mem_cons_self c cs)
          obtain ⟨d1, h1, hd1⟩ := ih c hc (depth + 1) t
          obtain ⟨d2, h2, hd2⟩ :=
            ihc (fun c' hc' => hmem c' (List.mem_cons_of_mem c hc'))
              (_recurse_reassign_blame g f c t)
          refine ⟨max d1 d2, ?_, max_le hd1 hd2⟩
          simp only [visitChildrenChk, if_pos hc, h1, h2]
          rfl
      obtain ⟨ds, hds, hdsle⟩ :=
        hlist (g.dep_children n) (fun c hc => hwf.children_mem n hn c hc) s
      refine ⟨max depth ds, ?_, ?_⟩
      · rw [visit_succ g f n s v hv]
        simp [visitChk, hv, hds,
          collapseChk_ok g n _ (hwf.parents_mem n hn)]
      · apply max_le (Nat.le_add_right depth _)
        calc ds ≤ depth + 1 + f := hdsle
        _ = depth + (f + 1) := by omega

/-- C4: for every graph built per the GraphBuilder contract — cycles
included — the traversal is total: the checked traversal, which
surfaces any dictionary-lookup failure (`KeyError`) as `none`, always
returns `some` state, that state is exactly what
`_recurse_reassign_blame` computes, and the deepest recursion depth
reached from a top-level entry (depth 0) never exceeds
`MAX_DEPTH = 10`. -/
theorem C4_traversal_total (g : PkgGraph) (hwf : WFGraph g) :
    ∀ n ∈ g.names, ∀ s : Sizes,
      ∃ d, visitChk g MAX_DEPTH 0 n s =
          some (_recurse_reassign_blame g MAX_DEPTH n s, d) ∧ d ≤ MAX_DEPTH := by
  intro n hn s
  obtain ⟨d, h1, h2⟩ := visitChk_ok g hwf MAX_DEPTH n hn 0 s
  exact ⟨d, h1, by simpa using h2⟩

/-- Witness for C4: the traversal on the two-node mutual-dependency
cycle terminates without error within the depth bound. -/
theorem C4_traversal_total_witness :
    ∃ d, visitChk gCyc MAX_DEPTH 0 "a" sCyc =
        some (_recurse_reassign_blame gCyc MAX_DEPTH "a" sCyc, d) ∧ d ≤ MAX_DEPTH :=
  C4_traversal_total gCyc wfCyc "a" (by decide) sCyc

/-- C7, amended: the Summary stage sorts the root packages descending
by size and truncates to the first `n` entries (default 50), but ties
are NOT broken by name: Python's `sort(reverse=True, key=...)` is
stable, so equal-size entries keep their original relative order.
Stated: the output is the `n`-prefix of a descending-sorted
permutation of the input in which, for every size value, the entries
of that size appear as a sublist in their original input order. -/
theorem C7_summary_sorted_truncated (roots : List (String × ℚ)) (n : Nat) :
    summarize roots n = (sort_root_packages roots).take n ∧
    List.Sorted sizeGe (summarize roots n) ∧
    (sort_root_packages roots).Perm roots ∧
    (summarize roots n).length = min n roots.length ∧
    (∀ q : ℚ, List.Sublist (roots.filter (fun a => decide (a.2 = q))) (sort_root_packages roots)) ∧
    default_num_packages = 50 := by
  refine ⟨rfl, ?_, ?_, ?_, ?_, rfl⟩
  · exact (List.sorted_insertionSort sizeGe roots).sublist (List.take_sublist n _)
  · exact List.perm_insertionSort sizeGe roots
  · show ((List.insertionSort sizeGe roots).take n).length = min n roots.length
    rw [List.length_take, List.length_insertionSort]
  · intro q
    apply List.sublist_insertionSort
    · apply List.pairwise_of_forall_mem_list
      intro a ha b hb
      have ha2 : a.2 = q := by simpa using (List.mem_filter.1 ha).2
      have hb2 : b.2 = q := by simpa using (List.mem_filter.1 hb).2
      exact le_of_eq (hb2.trans ha2.symm)
    · exact List.filter_sublist roots

/-- C7 counterexample: two roots of equal size in the order
`[("b",1), ("a",1)]`.  The code's Summary keeps the input order
(`b` first), while a name tie-break would put `a` first: the claimed
ordering differs from the computed one. -/
theorem C7_counterexample :
    summarize [("b", (1:ℚ)), ("a", 1)] default_num_packages = [("b", 1), ("a", 1)] ∧
    sort_by_spec [("b", (1:ℚ)), ("a", 1)] = [("a", 1), ("b", 1)] ∧
    summarize [("b", (1:ℚ)), ("a", 1)] default_num_packages ≠
      (sort_by_spec [("b", (1:ℚ)), ("a", 1)]).take default_num_packages := by
  refine ⟨?_, ?_, ?_⟩ <;> with_unfolding_all decide

/-! GraphBuilder characterization (C8). -/

theorem insertName_mem (x y : String) (l : List String) :
    x ∈ insertName y l ↔ x = y ∨ x ∈ l := by
  unfold insertName
  by_cases h : y ∈ l
  · simp only [if_pos h]
    constructor
    · exact fun hx => Or.inr hx
    · rintro (rfl | hx)
      · exact h
      · exact hx
  · simp [if_neg h, List.mem_append]
    tauto

theorem addEdge_children_mem (st : EdgeState) (p d a b : String) :
    b ∈ (addEdge st p d).dep_children a ↔
      b ∈ st.dep_children a ∨ (a = p ∧ b = d) := by
  unfold addEdge
  by_cases hap : a = p
  · subst hap
    simp only [Function.update_same, insertName_mem]
    tauto
  · simp only [Function.update_noteq hap]
    tauto

theorem addEdge_parents_mem (st : EdgeState) (p d a b : String) :
    a ∈ (addEdge st p d).dep_parents b ↔
      a ∈ st.dep_parents b ∨ (a = p ∧ b = d) := by
  unfold addEdge
  by_cases hbd : b = d
  · subst hbd
    simp only [Function.update_same, insertName_mem]
    tauto
  · simp only [Function.update_noteq hbd]
    tauto

theorem addAlternatives_children_mem (names : List String) (p : String) :
    ∀ (alts : List String) (st : EdgeState) (a b : String),
      b ∈ (addAlternatives names p alts st).dep_children a ↔
        b ∈ st.dep_children a ∨ (a = p ∧ b ∈ names ∧ b ∈ alts) := by
  intro alts
  induction alts with
  | nil => intro st a b; simp [addAlternatives]
  | cons d rest ih =>
    intro st a b
    by_cases hd : d ∈ names
    · rw [show addAlternatives names p (d :: rest) st =
        addAlternatives names p rest (addEdge st p d) by simp [addAlternatives, if_pos hd]]
      rw [ih, addEdge_children_mem]
      constructor
      · rintro ((h | ⟨rfl, rfl⟩) | ⟨rfl, hbn, hbr⟩)
        · exact Or.inl h
        · exact Or.inr ⟨rfl, hd, List.mem_cons_self _ _⟩
        · exact Or.inr ⟨rfl, hbn, List.mem_cons_of_mem d hbr⟩
      · rintro (h | ⟨rfl, hbn, hbm⟩)
        · exact Or.inl (Or.inl h)
        · rcases List.mem_cons.1 hbm with rfl | hbr
          · exact Or.inl (Or.inr ⟨rfl, rfl⟩)
          · exact Or.inr ⟨rfl, hbn, hbr⟩
    · rw [show addAlternatives names p (d :: rest) st =
        addAlternatives names p rest st by simp [addAlternatives, if_neg hd]]
      rw [ih]
      constructor
      · rintro (h | ⟨rfl, hbn, hbr⟩)
        · exact Or.inl h
        · exact Or.inr ⟨rfl, hbn, List.mem_cons_of_mem d hbr⟩
      · rintro (h | ⟨rfl, hbn, hbm⟩)
        · exact Or.inl h
        · rcases List.mem_cons.1 hbm with rfl | hbr
          · exact absurd hbn hd
          · exact Or.inr ⟨rfl, hbn, hbr⟩

theorem addAlternatives_parents_mem (names : List String) (p : String) :
    ∀ (alts : List String) (st : EdgeState) (a b : String),
      a ∈ (addAlternatives names p alts st).dep_parents b ↔
        a ∈ st.dep_parents b ∨ (a = p ∧ b ∈ names ∧ b ∈ alts) := by
  intro alts
  induction alts with
  | nil => intro st a b; simp [addAlternatives]
  | cons d rest ih =>
    intro st a b
    by_cases hd : d ∈ names
    · rw [show addAlternatives names p (d :: rest) st =
        addAlternatives names p rest (addEdge st p d) by simp [addAlternatives, if_pos hd]]
      rw [ih, addEdge_parents_mem]
      constructor
      · rintro ((h | ⟨rfl, rfl⟩) | ⟨rfl, hbn, hbr⟩)
        · exact Or.inl h
        · exact Or.inr ⟨rfl, hd, List.mem_cons_self _ _⟩
        · exact Or.inr ⟨rfl, hbn, List.mem_cons_of_mem d hbr⟩
      · rintro (h | ⟨rfl, hbn, hbm⟩)
        · exact Or.inl (Or.inl h)
        · rcases List.mem_cons.1 hbm with rfl | hbr
          · exact Or.inl (Or.inr ⟨rfl, rfl⟩)
          · exact Or.inr ⟨rfl, hbn, hbr⟩
    · rw [show addAlternatives names p (d :: rest) st =
        addAlternatives names p rest st by simp [addAlternatives, if_neg hd]]
      rw [ih]
      constructor
      · rintro (h | ⟨rfl, hbn, hbr⟩)
        · exact Or.inl h
        · exact Or.inr ⟨rfl, hbn, List.mem_cons_of_mem d hbr⟩
      · rintro (h | ⟨rfl, hbn, hbm⟩)
        · exact Or.inl h
        · rcases List.mem_cons.1 hbm with rfl | hbr
          · exact absurd hbn hd
          · exact Or.inr ⟨rfl, hbn, hbr⟩

theorem addDependencyGroups_children_mem (names : List String) (p : String) :
    ∀ (groups : List (List String)) (st : EdgeState) (a b : String),
      b ∈ (addDependencyGroups names p groups st).dep_children a ↔
        b ∈ st.dep_children a ∨ (a = p ∧ b ∈ names ∧ ∃ gl ∈ groups, b ∈ gl) := by
  intro groups
  induction groups with
  | nil => intro st a b; simp [addDependencyGroups]
  | cons gl groups ih =>
    intro st a b
    rw [show addDependencyGroups names p (gl :: groups) st =
      addDependencyGroups names p groups (addAlternatives names p gl st) from rfl]
    rw [ih, addAlternatives_children_mem]
    constructor
    · rintro ((h | ⟨rfl, hbn, hbg⟩) | ⟨rfl, hbn, g, hg, hbg⟩)
      · exact Or.inl h
      · exact Or.inr ⟨rfl, hbn, gl, List.mem_cons_self _ _, hbg⟩
      · exact Or.inr ⟨rfl, hbn, g, List.mem_cons_of_mem gl hg, hbg⟩
    · rintro (h | ⟨rfl, hbn, g, hg, hbg⟩)
      · exact Or.inl (Or.inl h)
      · rcases List.mem_cons.1 hg with rfl | hg'
        · exact Or.inl (Or.inr ⟨rfl, hbn, hbg⟩)
        · exact Or.inr ⟨rfl, hbn, g, hg', hbg⟩

theorem addDependencyGroups_parents_mem (names : List String) (p : String) :
    ∀ (groups : List (List String)) (st : EdgeState) (a b : String),
      a ∈ (addDependencyGroups names p groups st).dep_parents b ↔
        a ∈ st.dep_parents b ∨ (a = p ∧ b ∈ names ∧ ∃ gl ∈ groups, b ∈ gl) := by
  intro groups
  induction groups with
  | nil => intro st a b; simp [addDependencyGroups]
  | cons gl groups ih =>
    intro st a b
    rw [show addDependencyGroups names p (gl :: groups) st =
      addDependencyGroups names p groups (addAlternatives names p gl st) from rfl]
    rw [ih, addAlternatives_parents_mem]
    constructor
    · rintro ((h | ⟨rfl, hbn, hbg⟩) | ⟨rfl, hbn, g, hg, hbg⟩)
      · exact Or.inl h
      · exact Or.inr ⟨rfl, hbn, gl, List.mem_cons_self _ _, hbg⟩
      · exact Or.inr ⟨rfl, hbn, g, List.mem_cons_of_mem gl hg, hbg⟩
    · rintro (h | ⟨rfl, hbn, g, hg, hbg⟩)
      · exact Or.inl (Or.inl h)
      · rcases List.mem_cons.1 hg with rfl | hg'
        · exact Or.inl (Or.inr ⟨rfl, hbn, hbg⟩)
        · exact Or.inr ⟨rfl, hbn, g, hg', hbg⟩

theorem buildEdges_children_mem (names : List String) :
    ∀ (recs : List PkgRecord) (st : EdgeState) (a b : String),
      b ∈ (buildEdges names recs st).dep_children a ↔
        b ∈ st.dep_children a ∨
          ∃ r ∈ recs, r.name = a ∧ b ∈ names ∧ ∃ gl ∈ r.dependencies, b ∈ gl := by
  intro recs
  induction recs with
  | nil => intro st a b; simp [buildEdges]
  | cons r recs ih =>
    intro st a b
    rw [show buildEdges names (r :: recs) st =
      buildEdges names recs (addDependencyGroups names r.name r.dependencies st) from rfl]
    rw [ih, addDependencyGroups_children_mem]
    constructor
    · rintro ((h | ⟨ha, hbn, hg⟩) | ⟨r', hr', ha, hbn, hg⟩)
      · exact Or.inl h
      · exact Or.inr ⟨r, List.mem_cons_self _ _, ha.symm, hbn, hg⟩
      · exact Or.inr ⟨r', List.mem_cons_of_mem r hr', ha, hbn, hg⟩
    · rintro (h | ⟨r', hr', ha, hbn, hg⟩)
      · exact Or.inl (Or.inl h)
      · rcases List.mem_cons.1 hr' with rfl | hr''
        · exact Or.inl (Or.inr ⟨ha.symm, hbn, hg⟩)
        · exact Or.inr ⟨r', hr'', ha, hbn, hg⟩

theorem buildEdges_parents_mem (names : List String) :
    ∀ (recs : List PkgRecord) (st : EdgeState) (a b : String),
      a ∈ (buildEdges names recs st).dep_parents b ↔
        a ∈ st.dep_parents b ∨
          ∃ r ∈ recs, r.name = a ∧ b ∈ names ∧ ∃ gl ∈ r.dependencies, b ∈ gl := by
  intro recs
  induction recs with
  | nil => intro st a b; simp [buildEdges]
  | cons r recs ih =>
    intro st a b
    rw [show buildEdges names (r :: recs) st =
      buildEdges names recs (addDependencyGroups names r.name r.dependencies st) from rfl]
    rw [ih, addDependencyGroups_parents_mem]
    constructor
    · rintro ((h | ⟨ha, hbn, hg⟩) | ⟨r', hr', ha, hbn, hg⟩)
      · exact Or.inl h
      · exact Or.inr ⟨r, List.mem_cons_self _ _, ha.symm, hbn, hg⟩
      · exact Or.inr ⟨r', List.mem_cons_of_mem r hr', ha, hbn, hg⟩
    · rintro (h | ⟨r', hr', ha, hbn, hg⟩)
      · exact Or.inl (Or.inl h)
      · rcases List.mem_cons.1 hr' with rfl | hr''
        · exact Or.inl (Or.inr ⟨ha.symm, hbn, hg⟩)
        · exact Or.inr ⟨r', hr'', ha, hbn, hg⟩

theorem build_graph_children_iff (recs : List PkgRecord) (a b : String) :
    b ∈ (build_graph recs).dep_children a ↔
      ∃ r ∈ recs, r.name = a ∧ b ∈ record_names recs ∧ ∃ gl ∈ r.dependencies, b ∈ gl := by
  show b ∈ (buildEdges (record_names recs) recs ⟨fun _ => [], fun _ => []⟩).dep_children a ↔ _
  rw [buildEdges_children_mem]
  constructor
  · rintro (h | ⟨r, hr, ha, hbn, hg⟩)
    · exact absurd h (List.not_mem_nil b)
    · exact ⟨r, hr, ha, hbn, hg⟩
  · rintro ⟨r, hr, ha, hbn, hg⟩
    exact Or.inr ⟨r, hr, ha, hbn, hg⟩

theorem build_graph_parents_iff (recs : List PkgRecord) (a b : String) :
    a ∈ (build_graph recs).dep_parents b ↔
      ∃ r ∈ recs, r.name = a ∧ b ∈ record_names recs ∧ ∃ gl ∈ r.dependencies, b ∈ gl := by
  show a ∈ (buildEdges (record_names recs) recs ⟨fun _ => [], fun _ => []⟩).dep_parents b ↔ _
  rw [buildEdges_parents_mem]
  constructor
  · rintro (h | ⟨r, hr, ha, hbn, hg⟩)
    · exact absurd h (List.not_mem_nil a)
    · exact ⟨r, hr, ha, hbn, hg⟩
  · rintro ⟨r, hr, ha, hbn, hg⟩
    exact Or.inr ⟨r, hr, ha, hbn, hg⟩

/-- C8: the GraphBuilder establishes symmetric edges
(`B ∈ A.dep_children ↔ A ∈ B.dep_parents` for all names), never
creates an edge to a name that is not an installed record (the
alternative is skipped with no edge and no error), and for a
dependency group with one installed and one uninstalled alternative it
creates exactly the edge to the installed one. -/
theorem C8_graphbuilder_edges (recs : List PkgRecord) :
    (∀ a b : String,
      b ∈ (build_graph recs).dep_children a ↔ a ∈ (build_graph recs).dep_parents b) ∧
    (∀ a b : String, b ∉ record_names recs → b ∉ (build_graph recs).dep_children a) ∧
    (∀ r ∈ recs, ∀ gl ∈ r.dependencies, ∀ b c : String,
      b ∈ gl → b ∈ record_names recs → c ∈ gl → c ∉ record_names recs →
      b ∈ (build_graph recs).dep_children r.name ∧
      c ∉ (build_graph recs).dep_children r.name) := by
  refine ⟨?_, ?_, ?_⟩
  · intro a b
    rw [build_graph_children_iff, build_graph_parents_iff]
  · intro a b hbn hmem
    rw [build_graph_children_iff] at hmem
    obtain ⟨r, _, _, hbn', _⟩ := hmem
    exact hbn hbn'
  · intro r hr gl hgl b c hb hbn hc hcn
    constructor
    · rw [build_graph_children_iff]
      exact ⟨r, hr, rfl, hbn, gl, hgl, hb⟩
    · intro hmem
      rw [build_graph_children_iff] at hmem
      obtain ⟨r', _, _, hcn', _⟩ := hmem
      exact hcn hcn'

/-- Witness for C8: in `recsW`, `x` depends on the group `y | zz` with
`y` installed and `zz` not; exactly the edge `x → y` exists. -/
theorem C8_graphbuilder_edges_witness :
    "y" ∈ (build_graph recsW).dep_children "x" ∧
    "zz" ∉ (build_graph recsW).dep_children "x" :=
  (C8_graphbuilder_edges recsW).2.2 ⟨"x", 7, [["y", "zz"]]⟩ (List.mem_cons_self _ _)
    ["y", "zz"] (List.mem_cons_self _ _) "y" "zz" (by decide) (by decide) (by decide)
    (by decide)

/-! Error handling of the size-augmentation pass (C9). -/

theorem explore_var_loop_cons_var (env : SysEnv) (a : ℚ) (l : List String)
    (fn : String) (rest : List String) (h : is_var_path fn = true) :
    explore_var_loop env a l (fn :: rest) =
      match disk_usage env (var_path_of fn) with
      | none => none
      | some (sz, lg) => explore_var_loop env (a + sz) (l ++ lg) rest := by
  simp [explore_var_loop, h]

theorem explore_var_loop_cons_nonvar (env : SysEnv) (a : ℚ) (l : List String)
    (fn : String) (rest : List String) (h : is_var_path fn = false) :
    explore_var_loop env a l (fn :: rest) = explore_var_loop env a l rest := by
  simp [explore_var_loop, h]

theorem explore_var_loop_append (env : SysEnv) :
    ∀ (xs ys : List String) (a : ℚ) (l : List String),
      explore_var_loop env a l (xs ++ ys) =
        match explore_var_loop env a l xs with
        | none => none
        | some r => explore_var_loop env r.1 r.2 ys := by
  intro xs
  induction xs with
  | nil => intro ys a l; rfl
  | cons fn xs ih =>
    intro ys a l
    cases hfn : is_var_path fn with
    | true =>
      rw [List.cons_append, explore_var_loop_cons_var env a l fn (xs ++ ys) hfn,
        explore_var_loop_cons_var env a l fn xs hfn]
      cases hdu : disk_usage env (var_path_of fn) with
      | none => rfl
      | some r => exact ih ys (a + r.1) (l ++ r.2)
    | false =>
      rw [List.cons_append, explore_var_loop_cons_nonvar env a l fn (xs ++ ys) hfn,
        explore_var_loop_cons_nonvar env a l fn xs hfn]
      exact ih ys a l

theorem explore_var_loop_shift (env : SysEnv) :
    ∀ (fs : List String) (a : ℚ) (l : List String),
      explore_var_loop env a l fs =
        (explore_var env fs).map (fun r => (a + r.1, l ++ r.2)) := by
  intro fs
  induction fs with
  | nil =>
    intro a l
    show some (a, l) = some (a + 0, l ++ [])
    simp
  | cons fn rest ih =>
    intro a l
    cases hfn : is_var_path fn with
    | true =>
      rw [explore_var_loop_cons_var env a l fn rest hfn,
        show explore_var env (fn :: rest) = explore_var_loop env 0 [] (fn :: rest) from rfl,
        explore_var_loop_cons_var env 0 [] fn rest hfn]
      cases hdu : disk_usage env (var_path_of fn) with
      | none => rfl
      | some r =>
        obtain ⟨sz, lg⟩ := r
        show explore_var_loop env (a + sz) (l ++ lg) rest =
          (explore_var_loop env (0 + sz) ([] ++ lg) rest).map (fun r => (a + r.1, l ++ r.2))
        rw [ih (a + sz) (l ++ lg), ih (0 + sz) ([] ++ lg)]
        cases hev : explore_var env rest with
        | none => rfl
        | some r' =>
          show some (a + sz + r'.1, l ++ lg ++ r'.2) =
            some (a + (0 + sz + r'.1), l ++ ([] ++ lg ++ r'.2))
          simp [add_assoc]
    | false =>
      rw [explore_var_loop_cons_nonvar env a l fn rest hfn,
        show explore_var env (fn :: rest) = explore_var_loop env 0 [] (fn :: rest) from rfl,
        explore_var_loop_cons_nonvar env 0 [] fn rest hfn]
      exact ih a l

/-- C9: when `du` exits non-zero for a directory path, `disk_usage`
returns exactly zero bytes together with the error line containing the
attempted command and its output, without failing; and `explore_var`
keeps processing: the result over a concatenation of file lists is the
pair of summed sizes and concatenated logs of the two halves, so a
failing path contributes zero and stops nothing. -/
theorem C9_du_failure_contributes_zero (env : SysEnv) :
    (∀ path : String, env.isdir path = true →
      (env.getstatusoutput (du_cmd path)).1 ≠ 0 →
      disk_usage env path =
        some (0, [du_error_msg (du_cmd path) (env.getstatusoutput (du_cmd path)).2])) ∧
    (∀ (fs1 fs2 : List String) (t1 t2 : ℚ) (l1 l2 : List String),
      explore_var env fs1 = some (t1, l1) → explore_var env fs2 = some (t2, l2) →
      explore_var env (fs1 ++ fs2) = some (t1 + t2, l1 ++ l2)) := by
  constructor
  · intro path hdir hec
    unfold disk_usage
    rw [if_pos hdir, if_neg hec]
  · intro fs1 fs2 t1 t2 l1 l2 h1 h2
    show explore_var_loop env 0 [] (fs1 ++ fs2) = _
    rw [explore_var_loop_append env fs1 fs2 0 [],
      show explore_var_loop env 0 [] fs1 = explore_var env fs1 from rfl, h1]
    show explore_var_loop env t1 l1 fs2 = _
    rw [explore_var_loop_shift env fs2 t1 l1, h2]
    rfl

/-- Witness for C9: the failing environment `envFail` on the path
`/var/lib/x`: the measurement yields zero bytes plus the logged
command and output, and `explore_var` over the split file list
`["/var/lib/x"] ++ ["/other"]` still completes, with the failing path
contributing zero. -/
theorem C9_du_failure_contributes_zero_witness :
    envFail.isdir "/var/lib/x" = true ∧
    (envFail.getstatusoutput (du_cmd "/var/lib/x")).1 ≠ 0 ∧
    disk_usage envFail "/var/lib/x" =
      some (0, [du_error_msg (du_cmd "/var/lib/x")
        (envFail.getstatusoutput (du_cmd "/var/lib/x")).2]) ∧
    explore_var envFail ["/var/lib/x"] =
      some (0, [du_error_msg (du_cmd "/var/lib/x") "boom"]) ∧
    explore_var envFail ["/other"] = some (0, []) ∧
    explore_var envFail (["/var/lib/x"] ++ ["/other"]) =
      some (0 + 0, [du_error_msg (du_cmd "/var/lib/x") "boom"] ++ []) :=
  ⟨rfl, by decide,
    (C9_du_failure_contributes_zero envFail).1 "/var/lib/x" rfl (by decide),
    by with_unfolding_all decide,
    by with_unfolding_all decide,
    (C9_du_failure_contributes_zero envFail).2 ["/var/lib/x"] ["/other"] 0 0
      [du_error_msg (du_cmd "/var/lib/x") "boom"] []
      (by with_unfolding_all decide) (by with_unfolding_all decide)⟩
